import Mathlib

/-!
Verification development for `crawl.py`: a tool that converts a HAR
(HTTP Archive) capture into Markdown API documentation.  Python strings
are modelled as `List Char`; Python dictionaries as association lists in
insertion order (assignment to an existing key updates in place, new keys
are appended, matching CPython's ordered-dict semantics that the source
relies on when it takes `dict.keys()`).
-/

set_option maxHeartbeats 1000000

abbrev Str := List Char

/-- Python `s.split(sep)` for a one-character separator: splits at every
occurrence; the empty string yields `[[]]`. -/
def pySplit (sep : Char) : Str → List Str
  | [] => [[]]
  | c :: cs =>
    match pySplit sep cs with
    | [] => [[c]]
    | t :: ts => if c = sep then [] :: t :: ts else (c :: t) :: ts

/-- Python `s.find(c)` combined with the slicing the source performs:
returns the part before the first occurrence of `c` and the part after it,
or `none` when `c` does not occur (find = -1). -/
def splitFirst (c : Char) : Str → Option (Str × Str)
  | [] => none
  | a :: as =>
    if a = c then some ([], as)
    else (splitFirst c as).map (fun p => (a :: p.1, p.2))

/-- The `url[:idx]` truncation of `get_url`/`get_params`: everything before
the first `?`, or the whole string when there is none. -/
def cutAtQ (s : Str) : Str :=
  match splitFirst '?' s with
  | none => s
  | some p => p.1

/-- Python dictionary assignment `d[k] = v`: update in place when the key
exists (keeping its position), append otherwise. -/
def dictInsert (d : List (Str × Str)) (k v : Str) : List (Str × Str) :=
  if d.any (fun p => decide (p.1 = k)) then
    d.map (fun p => if p.1 = k then (k, v) else p)
  else d ++ [(k, v)]

/-- Python dictionary lookup `d.get(k)` on the association-list model. -/
def pyLookup (d : List (Str × Str)) (k : Str) : Option Str :=
  (d.find? (fun p => decide (p.1 = k))).map (fun p => p.2)

/-- One `pv` token of the query string: `param, value = pv.split("=")`,
falling back to `(pv.split("=")[0], "")` when the unpacking raises
`ValueError` (fewer or more than two pieces). -/
def parseToken (pv : Str) : Str × Str :=
  match pySplit '=' pv with
  | [p, v] => (p, v)
  | parts => (parts.headD [], [])

/-- `get_params` from crawl.py: the query string after the first `?` of the
original URL is split on `&`, each token on `=`, and the pairs are entered
into a dictionary in order (later duplicates overwrite). -/
def get_params (url : Str) : List (Str × Str) :=
  match splitFirst '?' url with
  | none => []
  | some p =>
    (pySplit '&' p.2).foldl
      (fun d pv => dictInsert d (parseToken pv).1 (parseToken pv).2) []

/-- `get_headers` from crawl.py: fold the HAR header array into a
dictionary, later duplicates overwriting earlier ones. -/
def get_headers (hs : List (Str × Str)) : List (Str × Str) :=
  hs.foldl (fun d p => dictInsert d p.1 p.2) []

/-- Errors that abort the Python run: an uncaught `json.JSONDecodeError`,
the `IndexError` from `url[-1]` on an empty string, and the
`AttributeError` from `.keys()` on a non-dict JSON body. -/
inductive Err where
  | jsonDecode
  | indexError
  | attrError
deriving DecidableEq

/-- `get_url` from crawl.py: drop the first `start` characters, truncate at
the first `?`, then test `url[-1] != "/"` — which raises `IndexError` when
the remaining string is empty — and append a `/` when absent. -/
def get_url (u : Str) (start : Nat) : Except Err Str :=
  match (cutAtQ (u.drop start)).getLast? with
  | none => .error .indexError
  | some c =>
    if c = '/' then .ok (cutAtQ (u.drop start))
    else .ok (cutAtQ (u.drop start) ++ ['/'])

example : get_params "b/x?a&c=2".toList = [("a".toList, "".toList), ("c".toList, "2".toList)] := by decide
example : get_params "b/x".toList = [] := by decide
example : parseToken "k=v1=v2".toList = ("k".toList, "".toList) := by decide
example : get_url "b/x?a=1".toList 1 = .ok "/x/".toList := by rfl
example : get_url "b/x/".toList 1 = .ok "/x/".toList := by rfl
example : get_url "b?a=1".toList 1 = .error .indexError := by rfl

/-- Whitespace accepted between JSON tokens by Python's `json.loads`. -/
def isWs (c : Char) : Bool :=
  c = ' ' || c = '\t' || c = '\n' || c = '\r'

def skipWs (s : Str) : Str := s.dropWhile isWs

/-- JSON values as returned by Python's `json.loads`.  Numbers keep their
source lexeme: crawl.py never computes with numeric values, it only stores
and prints them. -/
inductive Json where
  | null
  | bool (b : Bool)
  | num (lit : Str)
  | str (s : Str)
  | arr (elems : List Json)
  | obj (members : List (Str × Json))

/-- Single-character JSON string escapes. -/
def pEscape : Char → Option Char
  | '"' => some '"'
  | '\\' => some '\\'
  | '/' => some '/'
  | 'b' => some (Char.ofNat 8)
  | 'f' => some (Char.ofNat 12)
  | 'n' => some '\n'
  | 'r' => some '\r'
  | 't' => some '\t'
  | _ => none

def hexVal (c : Char) : Option Nat :=
  if '0' ≤ c ∧ c ≤ '9' then some (c.toNat - '0'.toNat)
  else if 'a' ≤ c ∧ c ≤ 'f' then some (c.toNat - 'a'.toNat + 10)
  else if 'A' ≤ c ∧ c ≤ 'F' then some (c.toNat - 'A'.toNat + 10)
  else none

/-- Body of a JSON string literal after the opening quote: returns the
decoded string and the input following the closing quote. -/
def pString : Str → Option (Str × Str)
  | [] => none
  | c :: rest =>
    if c = '"' then some ([], rest)
    else if c = '\\' then
      match rest with
      | 'u' :: h1 :: h2 :: h3 :: h4 :: rest2 => do
        let n1 ← hexVal h1
        let n2 ← hexVal h2
        let n3 ← hexVal h3
        let n4 ← hexVal h4
        let p ← pString rest2
        some (Char.ofNat (((n1 * 16 + n2) * 16 + n3) * 16 + n4) :: p.1, p.2)
      | e :: rest2 => do
        let ce ← pEscape e
        let p ← pString rest2
        some (ce :: p.1, p.2)
      | [] => none
    else do
      let p ← pString rest
      some (c :: p.1, p.2)

def jsonDigits (s : Str) : Str × Str :=
  (s.takeWhile Char.isDigit, s.dropWhile Char.isDigit)

/-- Integer part of a JSON number: `0`, or a nonzero digit followed by
digits (leading zeros are rejected, as in Python's json). -/
def pIntPart : Str → Option (Str × Str)
  | [] => none
  | c :: rest =>
    if c = '0' then some (['0'], rest)
    else if c.isDigit then some (c :: (jsonDigits rest).1, (jsonDigits rest).2)
    else none

def pFrac : Str → Option (Str × Str)
  | '.' :: rest =>
    match jsonDigits rest with
    | ([], _) => none
    | (ds, r) => some ('.' :: ds, r)
  | s => some ([], s)

def pExp : Str → Option (Str × Str)
  | c :: rest =>
    if c = 'e' ∨ c = 'E' then
      match rest with
      | s :: rest2 =>
        if s = '+' ∨ s = '-' then
          match jsonDigits rest2 with
          | ([], _) => none
          | (ds, r) => some (c :: s :: ds, r)
        else
          match jsonDigits (s :: rest2) with
          | ([], _) => none
          | (ds, r) => some (c :: ds, r)
      | [] => none
    else some ([], c :: rest)
  | [] => some ([], [])

def pNumber (s : Str) : Option (Str × Str) := do
  let (sign, s1) := match s with
    | '-' :: r => ((['-'] : Str), r)
    | _ => (([] : Str), s)
  let (ip, s2) ← pIntPart s1
  let (fp, s3) ← pFrac s2
  let (ep, s4) ← pExp s3
  some (sign ++ ip ++ fp ++ ep, s4)

mutual

/-- One JSON value, fuel-bounded recursive descent. -/
def pVal : Nat → Str → Option (Json × Str)
  | 0, _ => none
  | fuel + 1, s =>
    match skipWs s with
    | 'n' :: 'u' :: 'l' :: 'l' :: r => some (.null, r)
    | 't' :: 'r' :: 'u' :: 'e' :: r => some (.bool true, r)
    | 'f' :: 'a' :: 'l' :: 's' :: 'e' :: r => some (.bool false, r)
    | '"' :: r => (pString r).map (fun p => (.str p.1, p.2))
    | '\x7b' :: r =>
      (match skipWs r with
       | '\x7d' :: r2 => some (.obj [], r2)
       | r2 => (pMembers fuel r2).map (fun p => (.obj p.1, p.2)))
    | '[' :: r =>
      (match skipWs r with
       | ']' :: r2 => some (.arr [], r2)
       | r2 => (pItems fuel r2).map (fun p => (.arr p.1, p.2)))
    | r => (pNumber r).map (fun p => (.num p.1, p.2))

/-- Nonempty member list of a JSON object, from the first key's quote up to
and including the closing brace. -/
def pMembers : Nat → Str → Option (List (Str × Json) × Str)
  | 0, _ => none
  | fuel + 1, s =>
    match skipWs s with
    | '"' :: r => do
      let (k, r1) ← pString r
      match skipWs r1 with
      | ':' :: r2 => do
        let (v, r3) ← pVal fuel r2
        match skipWs r3 with
        | ',' :: r4 => do
          let (ms, r5) ← pMembers fuel r4
          some ((k, v) :: ms, r5)
        | '\x7d' :: r4 => some ([(k, v)], r4)
        | _ => none
      | _ => none
    | _ => none

/-- Nonempty item list of a JSON array, up to and including the closing
bracket. -/
def pItems : Nat → Str → Option (List Json × Str)
  | 0, _ => none
  | fuel + 1, s => do
    let (v, r) ← pVal fuel s
    match skipWs r with
    | ',' :: r2 => do
      let (vs, r3) ← pItems fuel r2
      some (v :: vs, r3)
    | ']' :: r2 => some ([v], r2)
    | _ => none

end

/-- Model of Python's `json.loads`: parse one JSON value and require only
trailing whitespace after it; `none` models an uncaught
`json.JSONDecodeError`. -/
def parseJson (t : Str) : Option Json :=
  match pVal (t.length + 1) t with
  | some (j, r) => if skipWs r = [] then some j else none
  | none => none

/-- `get_body` from crawl.py: `json.loads(req["postData"]["text"])` guarded
by `except KeyError`.  A structurally missing field (modelled by `none`)
yields the empty dict; present but unparseable text raises
`json.JSONDecodeError`, which the `except KeyError` clause does not catch. -/
def get_body (postDataText : Option Str) : Except Err Json :=
  match postDataText with
  | none => .ok (.obj [])
  | some t =>
    match parseJson t with
    | some j => .ok j
    | none => .error .jsonDecode

/-- `get_content` from crawl.py: same structure as `get_body`, applied to
`res["content"]["text"]`. -/
def get_content (contentText : Option Str) : Except Err Json :=
  match contentText with
  | none => .ok (.obj [])
  | some t =>
    match parseJson t with
    | some j => .ok j
    | none => .error .jsonDecode

example : parseJson "\x7b\"a\": 1\x7d".toList =
    some (.obj [("a".toList, .num "1".toList)]) := by rfl
example : parseJson "\x7b".toList = none := by rfl
example : parseJson "[1, \"x\", null, true, 2.5e-3]".toList =
    some (.arr [.num "1".toList, .str "x".toList, .null, .bool true,
      .num "2.5e-3".toList]) := by rfl
example : parseJson "01".toList = none := by rfl
example : get_body none = .ok (.obj []) := by rfl
example : get_body (some "not json".toList) = .error .jsonDecode := by rfl

/-- The pieces of one element of `log.entries` that crawl.py reads:
`request.method`, `request.url`, `request.headers`, `request.postData.text`,
`response.headers`, `response.content.text`.  A `none` text field models the
`KeyError` case of a structurally missing `postData`/`content` entry. -/
structure Entry where
  method : Str
  url : Str
  reqHeaders : List (Str × Str)
  postDataText : Option Str
  resHeaders : List (Str × Str)
  contentText : Option Str

/-- The `Request` dataclass of crawl.py. -/
structure Request where
  headers : List (Str × Str)
  params : List (Str × Str)
  body : Json

/-- The `Response` dataclass of crawl.py. -/
structure Response where
  headers : List (Str × Str)
  content : Json

/-- The `Endpoint` dataclass of crawl.py.  `request` and `response` are
`compare=False, hash=False` fields: they never participate in equality,
ordering or hashing. -/
structure Endpoint where
  method : Str
  url : Str
  request : Request
  response : Response

/-- Top-level keys of a parsed JSON body, i.e. `body.keys()`; `none` models
the `AttributeError` raised when the parsed body is not a dict. -/
def Json.objKeys : Json → Option (List Str)
  | .obj kvs => some (kvs.map (fun kv => kv.1))
  | _ => none

/-- The value `Endpoint.__hash__` depends on: the flat tuple
`(method, url, *params.keys(), *body.keys())`.  The splat operators
concatenate the two key sequences into one order-sensitive list.  Because
the generated `__eq__` compares only `(method, url)` — a projection of this
tuple — two endpoints collide in the result set exactly when these values
coincide. -/
def keyOf (e : Endpoint) : Str × Str × List Str :=
  (e.method, e.url,
    e.request.params.map (fun p => p.1) ++ (e.request.body.objKeys.getD []))

/-- The two filters of `get_endpoints`: the entry's method is not `OPTIONS`
and its URL starts with the configured base URL. -/
def Accepted (base : Str) (en : Entry) : Prop :=
  en.method ≠ "OPTIONS".toList ∧ en.url.take base.length = base

instance (base : Str) (en : Entry) : Decidable (Accepted base en) := by
  unfold Accepted; infer_instance

/-- The per-entry work of the `get_endpoints` loop body for an entry that
passed both filters, in Python evaluation order: build the `Request`
(headers, params, body), build the `Response` (headers, content), normalize
the URL, and finally — at `endpoints.add`, which invokes `__hash__` — take
`body.keys()`, which raises `AttributeError` when the parsed body is not a
dict. -/
def mkEndpoint (base : Str) (en : Entry) : Except Err Endpoint := do
  let body ← get_body en.postDataText
  let content ← get_content en.contentText
  let u ← get_url en.url base.length
  match body.objKeys with
  | none => .error .attrError
  | some _ =>
    .ok { method := en.method, url := u
          request := { headers := get_headers en.reqHeaders
                       params := get_params en.url, body := body }
          response := { headers := get_headers en.resHeaders
                        content := content } }

/-- `endpoints.add(e)` on the CPython set model: the element is dropped when
a member with the same hash tuple (and hence the same `(method, url)`
equality key) is already present — the first inserted instance is kept —
and appended otherwise. -/
def insertEndpoint (acc : List Endpoint) (e : Endpoint) : List Endpoint :=
  if acc.any (fun x => decide (keyOf x = keyOf e)) then acc else acc ++ [e]

/-- The `for entry in data["log"]["entries"]` loop of `get_endpoints`,
with `acc` the set built so far. -/
def extractGo (base : Str) (acc : List Endpoint) : List Entry → Except Err (List Endpoint)
  | [] => .ok acc
  | en :: rest =>
    if Accepted base en then
      match mkEndpoint base en with
      | .error e => .error e
      | .ok ep => extractGo base (insertEndpoint acc ep) rest
    else extractGo base acc rest

/-- `get_endpoints` from crawl.py, over an already-parsed HAR entry list.
The returned list is the result set in insertion order; an `Err` models the
uncaught exception that terminates the Python run. -/
def get_endpoints (entries : List Entry) (base : Str) : Except Err (List Endpoint) :=
  extractGo base [] entries

/-- Python string `<=`: lexicographic comparison by code point, a proper
prefix comparing as smaller. -/
def lexLe : Str → Str → Bool
  | [], _ => true
  | _ :: _, [] => false
  | a :: as, b :: bs => if a < b then true else if a = b then lexLe as bs else false

/-- The tuple ordering `(method, url) <= (method', url')` that
`@dataclass(order=True)` generates for `Endpoint` (its `compare=False`
fields `request` and `response` are excluded), as used by `sorted`. -/
def epLeP (a b : Endpoint) : Prop :=
  (if a.method = b.method then lexLe a.url b.url else lexLe a.method b.method) = true

instance : DecidableRel epLeP := fun a b => by unfold epLeP; infer_instance

/-- Ordering of JSON object keys under `json.dumps(..., sort_keys=True)`. -/
def memberLe (a b : Str × Json) : Prop := lexLe a.1 b.1 = true

instance : DecidableRel memberLe := fun a b => by unfold memberLe; infer_instance

def sortMembers (kvs : List (Str × Json)) : List (Str × Json) :=
  List.insertionSort memberLe kvs

/-- `sorted(endpoints)`: Python's stable ascending sort under the
`(method, url)` ordering, modelled by insertion sort (which is stable and
ascending for the same total preorder). -/
def sorted_endpoints (eps : List Endpoint) : List Endpoint :=
  List.insertionSort epLeP eps

def natStr (n : Nat) : Str := (Nat.repr n).toList

def jIndent (n : Nat) : Str := List.replicate (4 * n) ' '

/-- JSON string escaping for `json.dumps` output (simplified to the quote
and backslash escapes; crawl.py only embeds the result in Markdown). -/
def jEscape : Str → Str
  | [] => []
  | c :: cs =>
    (if c = '"' then ['\\', '"'] else if c = '\\' then ['\\', '\\'] else [c]) ++ jEscape cs

def commaNlJoin : List Str → Str
  | [] => []
  | [s] => s
  | s :: rest => s ++ ",\n".toList ++ commaNlJoin rest

/-- Model of `json.dumps(v, indent=4, sort_keys=True)` (fuel-bounded on the
term size; numbers are re-emitted as their source lexeme). -/
def dumpsVal : Nat → Nat → Json → Str
  | 0, _, _ => []
  | fuel + 1, lvl, j =>
    match j with
    | .null => "null".toList
    | .bool b => if b then "true".toList else "false".toList
    | .num lit => lit
    | .str s => '"' :: (jEscape s ++ ['"'])
    | .arr [] => "[]".toList
    | .arr xs =>
      "[\n".toList
      ++ commaNlJoin (xs.map (fun x => jIndent (lvl + 1) ++ dumpsVal fuel (lvl + 1) x))
      ++ ['\n'] ++ jIndent lvl ++ [']']
    | .obj [] => "\x7b\x7d".toList
    | .obj kvs =>
      "\x7b\n".toList
      ++ commaNlJoin ((sortMembers kvs).map (fun kv =>
           jIndent (lvl + 1) ++ '"' :: (jEscape kv.1 ++ "\": ".toList)
           ++ dumpsVal fuel (lvl + 1) kv.2))
      ++ ['\n'] ++ jIndent lvl ++ ['\x7d']

mutual

/-- Fuel bound for the printers below: the number of constructors of a JSON
value, which dominates its nesting depth. -/
def jsonFuel : Json → Nat
  | .null => 1
  | .bool _ => 1
  | .num _ => 1
  | .str _ => 1
  | .arr xs => 1 + jsonFuelList xs
  | .obj kvs => 1 + jsonFuelMembers kvs

def jsonFuelList : List Json → Nat
  | [] => 0
  | x :: xs => jsonFuel x + jsonFuelList xs

def jsonFuelMembers : List (Str × Json) → Nat
  | [] => 0
  | kv :: kvs => jsonFuel kv.2 + jsonFuelMembers kvs

end

def dumpsJson (j : Json) : Str := dumpsVal (jsonFuel j) 0 j

def commaJoin : List Str → Str
  | [] => []
  | [s] => s
  | s :: rest => s ++ ", ".toList ++ commaJoin rest

def squote : Char := Char.ofNat 39

/-- Model of Python `str()` applied to a `json.loads` result, as the
f-string in `write_table` does for body values (numeric and repr corner
cases simplified; crawl.py only embeds this text in Markdown).  The flag is
true at top level (`str`) and false inside containers (`repr`). -/
def pyStr : Nat → Bool → Json → Str
  | 0, _, _ => []
  | fuel + 1, top, j =>
    match j with
    | .null => "None".toList
    | .bool b => if b then "True".toList else "False".toList
    | .num lit => lit
    | .str s => if top then s else squote :: (s ++ [squote])
    | .arr xs => '[' :: (commaJoin (xs.map (pyStr fuel false)) ++ [']'])
    | .obj kvs =>
      '\x7b' :: (commaJoin (kvs.map (fun kv =>
        pyStr fuel false (.str kv.1) ++ ": ".toList ++ pyStr fuel false kv.2))
        ++ ['\x7d'])

def pyStrOf (j : Json) : Str := pyStr (jsonFuel j) true j

/-- `write_table` from crawl.py, as the string it writes to the page. -/
def write_table (d : List (Str × Str)) (key_name value_name : Str) : Str :=
  key_name ++ " | ".toList ++ value_name ++ "\n".toList
  ++ ":----- | :----\n".toList
  ++ (d.foldl (fun acc kv =>
        acc ++ "`".toList ++ kv.1 ++ "` | <code>".toList ++ kv.2 ++ "</code>\n".toList) [])
  ++ "\n".toList

/-- `write_request` from crawl.py, as the string it writes. -/
def write_request (e : Endpoint) : Str :=
  "## Request\n\n".toList
  ++ "<details>\n<summary>Headers</summary>\n\n".toList
  ++ write_table e.request.headers "Header".toList "Value".toList
  ++ "</details>\n".toList
  ++ "### Parameters\n\n".toList
  ++ (if e.request.params.length > 0 then
        write_table e.request.params "Parameter".toList "Value".toList
      else "| None |\n| :--- |\n\n".toList)
  ++ (if e.method = "POST".toList then
        "### Body\n\n".toList
        ++ (match e.request.body with
            | .obj (kv :: kvs) =>
              write_table ((kv :: kvs).map (fun p => (p.1, pyStrOf p.2)))
                "Parameter".toList "Value".toList
            | _ => "| None |\n| :--- |\n\n".toList)
      else [])

/-- `write_response` from crawl.py, as the string it writes. -/
def write_response (e : Endpoint) : Str :=
  "## Response\n\n".toList
  ++ "<details>\n<summary>Headers</summary>\n\n".toList
  ++ write_table e.response.headers "Header".toList "Value".toList
  ++ "</details>\n".toList
  ++ "### Content\n\n".toList
  ++ "```\n".toList ++ dumpsJson e.response.content ++ "\n```\n".toList

/-- The index link line `- [`METHOD url`](url[1:]METHOD_i.html)` that
`write_md` appends to `index.md` for the `i`-th sorted endpoint. -/
def indexLine (e : Endpoint) (i : Nat) : Str :=
  "- [`".toList ++ e.method ++ " ".toList ++ e.url ++ "`](".toList
  ++ e.url.drop 1 ++ e.method ++ "_".toList ++ natStr i ++ ".html)\n".toList

/-- The body of one endpoint page: back-link, heading, request section,
response section. -/
def pageContent (e : Endpoint) : Str :=
  "[Back to index](".toList
  ++ (List.replicate (e.url.count '/' - 1) "../".toList).flatten
  ++ "index.html)\n\n".toList
  ++ "## `".toList ++ e.method ++ " ".toList ++ e.url ++ "`\n\n".toList
  ++ write_request e ++ write_response e

/-- Observable effects of a run: stdout lines, directory creation, file
writes (mode `w`) and file appends (mode `a`), and the read of the HAR
file. -/
inductive Ev where
  | readHar
  | print (line : Str)
  | mkdirEv (d : Str)
  | writeEv (path : Str) (content : Str)
  | appendEv (path : Str) (content : Str)

/-- The per-endpoint iteration of `write_md`, `i` being the running index:
create the mirrored directory, append the link to `index.md`, write the
page file. -/
def renderLoop (out_dir : Str) (i : Nat) : List Endpoint → List Ev
  | [] => []
  | e :: rest =>
    [Ev.mkdirEv (out_dir ++ e.url),
     Ev.appendEv (out_dir ++ "/index.md".toList) (indexLine e i),
     Ev.writeEv (out_dir ++ e.url ++ e.method ++ "_".toList ++ natStr i ++ ".md".toList)
       (pageContent e)]
    ++ renderLoop out_dir (i + 1) rest

/-- `write_md` from crawl.py as its event trace: strip a trailing slash
from the output directory (`out_dir[-1]` raises `IndexError` on an empty
string), create it, write the index header, then iterate over the sorted
endpoints. -/
def write_md (base : Str) (eps : List Endpoint) (out_dir0 : Str) : Except Err (List Ev) :=
  match out_dir0.getLast? with
  | none => .error .indexError
  | some c =>
    let out_dir := if c = '/' then out_dir0.dropLast else out_dir0
    .ok ([Ev.mkdirEv out_dir,
          Ev.writeEv (out_dir ++ "/index.md".toList)
            ("## `".toList ++ base ++ "`\n\n".toList)]
         ++ renderLoop out_dir 0 (sorted_endpoints eps))

def usageMsg : Str := "Usage: ./crawl.py <HAR file> <API base URL> <output dir>".toList

def stdoutLine (e : Endpoint) : Str := e.method ++ " ".toList ++ e.url

/-- `main` from crawl.py over `sys.argv` and the parsed content of the HAR
file, returning the event trace and the exit status.  With other than
exactly four `argv` entries it prints the usage line and exits with status
1; otherwise it reads the HAR file, extracts, prints the sorted endpoint
listing, and renders.  An `Err` models an uncaught exception. -/
def pyMain (argv : List Str) (har : List Entry) : Except Err (List Ev × Nat) :=
  match argv with
  | [_prog, _harPath, base, out_dir] => do
    let eps ← get_endpoints har base
    let wr ← write_md base eps out_dir
    .ok (Ev.readHar :: ((sorted_endpoints eps).map (fun e => Ev.print (stdoutLine e)) ++ wr), 0)
  | _ => .ok ([Ev.print usageMsg], 1)

theorem splitFirst_eq_none {c : Char} {s : Str} : splitFirst c s = none ↔ c ∉ s := by
  induction s with
  | nil => simp [splitFirst]
  | cons a as ih =>
    simp only [splitFirst, List.mem_cons]
    by_cases h : a = c
    · simp [h]
    · rw [if_neg h, Option.map_eq_none', ih]
      constructor
      · rintro hn (rfl | hm)
        · exact h rfl
        · exact hn hm
      · intro hn hm
        exact hn (Or.inr hm)

theorem splitFirst_fst_not_mem {c : Char} {s : Str} {p : Str × Str}
    (h : splitFirst c s = some p) : c ∉ p.1 := by
  induction s generalizing p with
  | nil => simp [splitFirst] at h
  | cons a as ih =>
    simp only [splitFirst] at h
    by_cases ha : a = c
    · rw [if_pos ha] at h
      cases h
      simp
    · rw [if_neg ha] at h
      match hs : splitFirst c as with
      | none => rw [hs] at h; simp at h
      | some q =>
        rw [hs] at h
        simp only [Option.map_some', Option.some_inj] at h
        subst h
        simp only [List.mem_cons, not_or]
        exact ⟨fun hc => ha hc.symm, ih hs⟩

theorem cutAtQ_not_mem (s : Str) : '?' ∉ cutAtQ s := by
  unfold cutAtQ
  match h : splitFirst '?' s with
  | none => exact splitFirst_eq_none.mp h
  | some p => exact splitFirst_fst_not_mem h

theorem cutAtQ_of_not_mem {s : Str} (h : '?' ∉ s) : cutAtQ s = s := by
  unfold cutAtQ
  rw [splitFirst_eq_none.mpr h]

theorem pySplit_ne_nil (c : Char) (s : Str) : pySplit c s ≠ [] := by
  cases s with
  | nil => simp [pySplit]
  | cons a as =>
    simp only [pySplit]
    match h : pySplit c as with
    | [] => simp
    | t :: ts =>
      by_cases hc : a = c <;> simp [hc]

theorem pySplit_length (c : Char) (s : Str) :
    (pySplit c s).length = s.count c + 1 := by
  induction s with
  | nil => simp [pySplit]
  | cons a as ih =>
    simp only [pySplit]
    match h : pySplit c as with
    | [] => exact absurd h (pySplit_ne_nil c as)
    | t :: ts =>
      rw [h] at ih
      simp only [List.count_cons]
      by_cases hc : a = c
      · subst hc
        simp only [if_pos rfl, List.length_cons, beq_self_eq_true, if_pos]
        simp only [List.length_cons] at ih
        omega
      · have hbeq : (a == c) = false := beq_false_of_ne hc
        simp only [if_neg hc, List.length_cons, hbeq, Bool.false_eq_true, if_false]
        simp only [List.length_cons] at ih
        omega

theorem pySplit_headD (c : Char) (s : Str) :
    (pySplit c s).headD [] = s.takeWhile (fun x => decide (x ≠ c)) := by
  induction s with
  | nil => simp [pySplit]
  | cons a as ih =>
    simp only [pySplit]
    match h : pySplit c as with
    | [] => exact absurd h (pySplit_ne_nil c as)
    | t :: ts =>
      rw [h] at ih
      by_cases hc : a = c
      · subst hc
        simp [List.takeWhile]
      · simp only [if_neg hc, List.headD_cons, List.takeWhile]
        simp only [List.headD_cons] at ih
        simp [decide_eq_true (show a ≠ c from hc), ih]

theorem pySplit_of_not_mem {c : Char} {s : Str} (h : c ∉ s) : pySplit c s = [s] := by
  induction s with
  | nil => simp [pySplit]
  | cons a as ih =>
    simp only [List.mem_cons, not_or] at h
    simp only [pySplit]
    rw [ih h.2]
    simp only [if_neg (fun he : a = c => h.1 he.symm)]

theorem find?_map_update_ne (ps : List (Str × Str)) (k v k' : Str) (hne : k' ≠ k) :
    (ps.map (fun q => if q.1 = k then (k, v) else q)).find? (fun q => decide (q.1 = k'))
      = ps.find? (fun q => decide (q.1 = k')) := by
  induction ps with
  | nil => rfl
  | cons q qs ih =>
    simp only [List.map_cons, List.find?_cons]
    by_cases hq : q.1 = k
    · have h1 : decide ((k, v).1 = k') = false := by
        simp only [decide_eq_false_iff_not]
        exact fun h => hne h.symm
      have h2 : decide (q.1 = k') = false := by
        simp only [decide_eq_false_iff_not, hq]
        exact fun h => hne h.symm
      rw [if_pos hq, h1, h2]
      exact ih
    · rw [if_neg hq]
      cases hq' : decide (q.1 = k') <;> simp [ih]

theorem dictInsert_cons (p : Str × Str) (ps : List (Str × Str)) (k v : Str) :
    dictInsert (p :: ps) k v =
      if p.1 = k then (k, v) :: ps.map (fun q => if q.1 = k then (k, v) else q)
      else p :: dictInsert ps k v := by
  by_cases hp : p.1 = k
  · simp [dictInsert, hp]
  · simp only [dictInsert, List.any_cons, if_neg hp]
    have hd : decide (p.1 = k) = false := decide_eq_false hp
    simp only [hd, Bool.false_or]
    cases hany : ps.any (fun q => decide (q.1 = k)) <;> simp [hp]

theorem pyLookup_nil (k : Str) : pyLookup [] k = none := rfl

theorem pyLookup_cons (p : Str × Str) (ps : List (Str × Str)) (k : Str) :
    pyLookup (p :: ps) k = if p.1 = k then some p.2 else pyLookup ps k := by
  simp only [pyLookup, List.find?_cons]
  by_cases hp : p.1 = k
  · rw [decide_eq_true hp, if_pos hp]
    rfl
  · rw [decide_eq_false hp, if_neg hp]

theorem pyLookup_dictInsert (d : List (Str × Str)) (k v k' : Str) :
    pyLookup (dictInsert d k v) k' = if k' = k then some v else pyLookup d k' := by
  induction d with
  | nil =>
    have hnil : dictInsert [] k v = [(k, v)] := rfl
    rw [hnil, pyLookup_cons]
    by_cases h : k' = k
    · rw [if_pos h.symm, if_pos h]
    · rw [if_neg (fun he : (k, v).1 = k' => h he.symm), if_neg h, pyLookup_nil]
  | cons p ps ih =>
    rw [dictInsert_cons]
    by_cases hp : p.1 = k
    · rw [if_pos hp, pyLookup_cons]
      by_cases hk : k' = k
      · simp [hk]
      · rw [if_neg (fun he : k = k' => hk he.symm), if_neg hk, pyLookup_cons,
          if_neg (fun he : p.1 = k' => hk (hp ▸ he).symm)]
        · simp only [pyLookup]
          rw [find?_map_update_ne ps k v k' hk]
    · rw [if_neg hp, pyLookup_cons, pyLookup_cons]
      by_cases hpk : p.1 = k'
      · rw [if_pos hpk, if_neg (fun he : k' = k => hp (hpk.trans he)), if_pos hpk]
      · rw [if_neg hpk, if_neg hpk, ih]

theorem pyLookup_foldl (ps : List (Str × Str)) (d0 : List (Str × Str)) (k : Str) :
    pyLookup (ps.foldl (fun d p => dictInsert d p.1 p.2) d0) k =
      match ps.reverse.find? (fun p => decide (p.1 = k)) with
      | some p => some p.2
      | none => pyLookup d0 k := by
  induction ps generalizing d0 with
  | nil => simp
  | cons p ps ih =>
    simp only [List.foldl_cons, List.reverse_cons]
    rw [ih, List.find?_append]
    cases h : ps.reverse.find? (fun q => decide (q.1 = k)) with
    | some q => simp
    | none =>
      simp only [Option.none_or]
      rw [pyLookup_dictInsert]
      by_cases hpk : p.1 = k
      · simp only [List.find?_cons, decide_eq_true hpk]
        rw [if_pos hpk.symm]
      · simp only [List.find?_cons, decide_eq_false hpk]
        rw [if_neg (fun he : k = p.1 => hpk he.symm)]
        rfl

theorem get_url_ok_shape {u : Str} {start : Nat} {v : Str}
    (h : get_url u start = .ok v) : '?' ∉ v ∧ v.getLast? = some '/' := by
  unfold get_url at h
  generalize hs : cutAtQ (u.drop start) = s at h
  match hl : s.getLast? with
  | none => rw [hl] at h; simp at h
  | some c =>
    rw [hl] at h
    dsimp only at h
    by_cases hc : c = '/'
    · rw [if_pos hc] at h
      cases h
      subst hs
      exact ⟨cutAtQ_not_mem _, hc ▸ hl⟩
    · rw [if_neg hc] at h
      cases h
      subst hs
      refine ⟨?_, List.getLast?_concat _⟩
      intro hm
      rcases List.mem_append.mp hm with hm | hm
      · exact cutAtQ_not_mem _ hm
      · simp at hm

theorem get_url_of_normalized {u : Str} (hq : '?' ∉ u) (hl : u.getLast? = some '/') :
    get_url u 0 = .ok u := by
  unfold get_url
  rw [List.drop_zero, cutAtQ_of_not_mem hq, hl]
  simp

theorem insertEndpoint_subset (acc : List Endpoint) (e : Endpoint) :
    acc ⊆ insertEndpoint acc e := by
  unfold insertEndpoint
  split
  · exact fun _ h => h
  · exact fun x h => List.mem_append.mpr (Or.inl h)

theorem mem_insertEndpoint {acc : List Endpoint} {e x : Endpoint}
    (h : x ∈ insertEndpoint acc e) : x ∈ acc ∨ x = e := by
  unfold insertEndpoint at h
  split at h
  · exact Or.inl h
  · rcases List.mem_append.mp h with h | h
    · exact Or.inl h
    · simp at h; exact Or.inr h

theorem insertEndpoint_covers (acc : List Endpoint) (e : Endpoint) :
    ∃ y ∈ insertEndpoint acc e, keyOf y = keyOf e := by
  unfold insertEndpoint
  split
  case isTrue h =>
    rcases List.any_eq_true.mp h with ⟨y, hy, hk⟩
    exact ⟨y, hy, of_decide_eq_true hk⟩
  case isFalse h =>
    exact ⟨e, List.mem_append.mpr (Or.inr (by simp)), rfl⟩

theorem insertEndpoint_pairwise {acc : List Endpoint} {e : Endpoint}
    (h : acc.Pairwise (fun a b => keyOf a ≠ keyOf b)) :
    (insertEndpoint acc e).Pairwise (fun a b => keyOf a ≠ keyOf b) := by
  unfold insertEndpoint
  split
  · exact h
  case isFalse hany =>
    rw [List.pairwise_append]
    refine ⟨h, List.pairwise_singleton _ _, ?_⟩
    intro a ha b hb
    simp only [List.mem_singleton] at hb
    subst hb
    intro hk
    exact hany (List.any_eq_true.mpr ⟨a, ha, decide_eq_true hk⟩)

theorem extractGo_subset {base : Str} {acc : List Endpoint} {l : List Entry}
    {eps : List Endpoint} (h : extractGo base acc l = .ok eps) : acc ⊆ eps := by
  induction l generalizing acc with
  | nil =>
    unfold extractGo at h
    cases h
    exact fun _ h => h
  | cons en rest ih =>
    unfold extractGo at h
    split at h
    · match hmk : mkEndpoint base en with
      | .error e => rw [hmk] at h; simp at h
      | .ok ep =>
        rw [hmk] at h
        exact fun x hx => ih h (insertEndpoint_subset acc ep hx)
    · exact ih h

theorem extractGo_pairwise {base : Str} {acc : List Endpoint} {l : List Entry}
    {eps : List Endpoint} (h : extractGo base acc l = .ok eps)
    (hp : acc.Pairwise (fun a b => keyOf a ≠ keyOf b)) :
    eps.Pairwise (fun a b => keyOf a ≠ keyOf b) := by
  induction l generalizing acc with
  | nil =>
    unfold extractGo at h
    cases h
    exact hp
  | cons en rest ih =>
    unfold extractGo at h
    split at h
    · match hmk : mkEndpoint base en with
      | .error e => rw [hmk] at h; simp at h
      | .ok ep =>
        rw [hmk] at h
        exact ih h (insertEndpoint_pairwise hp)
    · exact ih h hp

theorem extractGo_covers {base : Str} {acc : List Endpoint} {l : List Entry}
    {eps : List Endpoint} {en : Entry} {e : Endpoint}
    (h : extractGo base acc l = .ok eps) (hen : en ∈ l)
    (hacc : Accepted base en) (hmk : mkEndpoint base en = .ok e) :
    ∃ y ∈ eps, keyOf y = keyOf e := by
  induction l generalizing acc with
  | nil => simp at hen
  | cons en0 rest ih =>
    unfold extractGo at h
    rcases List.mem_cons.mp hen with rfl | hen'
    · rw [if_pos hacc, hmk] at h
      rcases insertEndpoint_covers acc e with ⟨y, hy, hk⟩
      exact ⟨y, extractGo_subset h hy, hk⟩
    · split at h
      · match hmk0 : mkEndpoint base en0 with
        | .error e0 => rw [hmk0] at h; simp at h
        | .ok ep0 =>
          rw [hmk0] at h
          exact ih h hen'
      · exact ih h hen'

/-- An entry passes the filters and yields an endpoint whose set-insertion
key is `k`. -/
def ProducesKey (base : Str) (en : Entry) (k : Str × Str × List Str) : Prop :=
  Accepted base en ∧ ∃ y, mkEndpoint base en = .ok y ∧ keyOf y = k

theorem extractGo_first {base : Str} {acc : List Endpoint} {l : List Entry}
    {eps : List Endpoint} {x : Endpoint}
    (h : extractGo base acc l = .ok eps) (hx : x ∈ eps) :
    x ∈ acc ∨
      ∃ pre en post, l = pre ++ en :: post ∧ Accepted base en ∧
        mkEndpoint base en = .ok x ∧
        (∀ y ∈ acc, keyOf y ≠ keyOf x) ∧
        ∀ en' ∈ pre, ¬ ProducesKey base en' (keyOf x) := by
  induction l generalizing acc with
  | nil =>
    unfold extractGo at h
    cases h
    exact Or.inl hx
  | cons en0 rest ih =>
    unfold extractGo at h
    by_cases hacc : Accepted base en0
    · rw [if_pos hacc] at h
      match hmk : mkEndpoint base en0 with
      | .error e0 => rw [hmk] at h; simp at h
      | .ok ep0 =>
        rw [hmk] at h
        rcases ih h with hin | ⟨pre, en, post, heq, hA, hM, hK, hP⟩
        · by_cases hany : acc.any (fun y => decide (keyOf y = keyOf ep0))
          · rw [insertEndpoint, if_pos hany] at hin
            exact Or.inl hin
          · rw [insertEndpoint, if_neg hany] at hin
            rcases List.mem_append.mp hin with hax | hx0
            · exact Or.inl hax
            · simp only [List.mem_singleton] at hx0
              subst hx0
              refine Or.inr ⟨[], en0, rest, rfl, hacc, hmk, ?_, by simp⟩
              intro y hy hk
              exact hany (List.any_eq_true.mpr ⟨y, hy, decide_eq_true hk⟩)
        · subst heq
          refine Or.inr ⟨en0 :: pre, en, post, rfl, hA, hM, ?_, ?_⟩
          · intro y hy
            exact hK y (insertEndpoint_subset acc ep0 hy)
          · intro en' hen'
            rcases List.mem_cons.mp hen' with rfl | hmem
            · rintro ⟨hA0, y, hy, hky⟩
              rw [hmk] at hy
              cases hy
              rcases insertEndpoint_covers acc ep0 with ⟨z, hz, hkz⟩
              exact hK z hz (hkz.trans hky)
            · exact hP en' hmem
    · rw [if_neg hacc] at h
      rcases ih h with hin | ⟨pre, en, post, heq, hA, hM, hK, hP⟩
      · exact Or.inl hin
      · subst heq
        refine Or.inr ⟨en0 :: pre, en, post, rfl, hA, hM, hK, ?_⟩
        intro en' hen'
        rcases List.mem_cons.mp hen' with rfl | hmem
        · rintro ⟨hA0, _⟩
          exact hacc hA0
        · exact hP en' hmem

theorem extractGo_error {base : Str} {en : Entry} {err0 : Err}
    (hacc : Accepted base en) (hmk : mkEndpoint base en = .error err0) :
    ∀ l, en ∈ l → ∀ acc, ∃ err, extractGo base acc l = .error err := by
  intro l
  induction l with
  | nil => intro hen; simp at hen
  | cons en0 rest ih =>
    intro hen acc
    unfold extractGo
    rcases List.mem_cons.mp hen with rfl | hmem
    · rw [if_pos hacc, hmk]
      exact ⟨err0, rfl⟩
    · by_cases hacc0 : Accepted base en0
      · rw [if_pos hacc0]
        match hmk0 : mkEndpoint base en0 with
        | .error e0 => exact ⟨e0, rfl⟩
        | .ok ep0 => exact ih hmem _
      · rw [if_neg hacc0]
        exact ih hmem _

theorem extractGo_filter (base : Str) (l : List Entry) : ∀ acc,
    extractGo base acc l
      = extractGo base acc (l.filter (fun en => decide (Accepted base en))) := by
  induction l with
  | nil => intro acc; rfl
  | cons en0 rest ih =>
    intro acc
    rw [List.filter_cons]
    by_cases hacc : Accepted base en0
    · rw [decide_eq_true hacc]
      simp only [if_pos]
      conv_lhs => unfold extractGo
      conv_rhs => unfold extractGo
      rw [if_pos hacc, if_pos hacc]
      match hmk : mkEndpoint base en0 with
      | .error e => rfl
      | .ok ep => exact ih _
    · rw [decide_eq_false hacc]
      simp only [Bool.false_eq_true, if_false]
      conv_lhs => unfold extractGo
      rw [if_neg hacc]
      exact ih _

theorem mkEndpoint_bad_body {base : Str} {en : Entry} {t : Str}
    (ht : en.postDataText = some t) (hp : parseJson t = none) :
    mkEndpoint base en = .error .jsonDecode := by
  have hgb : get_body en.postDataText = .error .jsonDecode := by
    simp only [get_body, ht, hp]
  unfold mkEndpoint
  rw [hgb]
  rfl

theorem mkEndpoint_bad_content {base : Str} {en : Entry} {t : Str}
    (ht : en.contentText = some t) (hp : parseJson t = none) :
    ∃ err, mkEndpoint base en = .error err := by
  have hgc : get_content en.contentText = .error .jsonDecode := by
    simp only [get_content, ht, hp]
  unfold mkEndpoint
  match hb : get_body en.postDataText with
  | .error e => exact ⟨e, rfl⟩
  | .ok body => exact ⟨.jsonDecode, by rw [hgc]; rfl⟩

theorem mkEndpoint_empty_url {base : Str} {en : Entry}
    (hu : cutAtQ (en.url.drop base.length) = []) :
    ∃ err, mkEndpoint base en = .error err := by
  have hurl : get_url en.url base.length = .error .indexError := by
    unfold get_url
    rw [hu]
    rfl
  unfold mkEndpoint
  match hb : get_body en.postDataText with
  | .error e => exact ⟨e, rfl⟩
  | .ok body =>
    match hc : get_content en.contentText with
    | .error e => exact ⟨e, rfl⟩
    | .ok content => exact ⟨.indexError, by rw [hurl]; rfl⟩

theorem filter_key_length_one {eps : List Endpoint}
    (hp : eps.Pairwise (fun a b => keyOf a ≠ keyOf b)) {x : Endpoint} (hx : x ∈ eps)
    {k : Str × Str × List Str} (hk : keyOf x = k) :
    (eps.filter (fun y => decide (keyOf y = k))).length = 1 := by
  induction eps with
  | nil => simp at hx
  | cons e es ih =>
    rw [List.pairwise_cons] at hp
    rcases List.mem_cons.mp hx with rfl | hmem
    · rw [List.filter_cons, decide_eq_true hk, if_pos rfl]
      have hnil : es.filter (fun y => decide (keyOf y = k)) = [] := by
        rw [List.filter_eq_nil_iff]
        intro y hy
        simp only [decide_eq_true_eq]
        exact fun he => hp.1 y hy (hk.trans he.symm)
      rw [hnil]
      rfl
    · have hne : keyOf e ≠ k := fun he => hp.1 x hmem (he.trans hk.symm)
      rw [List.filter_cons, decide_eq_false hne]
      simp only [Bool.false_eq_true, if_false]
      exact ih hp.2 hmem

theorem lexLe_total (a b : Str) : lexLe a b = true ∨ lexLe b a = true := by
  induction a generalizing b with
  | nil => exact Or.inl rfl
  | cons x xs ih =>
    cases b with
    | nil => exact Or.inr rfl
    | cons y ys =>
      rcases lt_trichotomy x y with h | h | h
      · left
        simp [lexLe, h]
      · subst h
        rcases ih ys with h' | h'
        · left
          simp [lexLe, h', lt_self_iff_false]
        · right
          simp [lexLe, h', lt_self_iff_false]
      · right
        simp [lexLe, h]

theorem lexLe_trans {a b c : Str} (h1 : lexLe a b = true) (h2 : lexLe b c = true) :
    lexLe a c = true := by
  induction a generalizing b c with
  | nil => rfl
  | cons x xs ih =>
    cases b with
    | nil => simp [lexLe] at h1
    | cons y ys =>
      cases c with
      | nil => simp [lexLe] at h2
      | cons z zs =>
        simp only [lexLe] at h1 h2 ⊢
        rcases lt_trichotomy x y with hxy | hxy | hxy
        · rcases lt_trichotomy y z with hyz | hyz | hyz
          · simp [lt_trans hxy hyz]
          · subst hyz
            simp [hxy]
          · rw [if_neg (asymm hyz), if_neg (ne_of_gt hyz)] at h2
            simp at h2
        · subst hxy
          rw [if_neg (lt_irrefl x), if_pos rfl] at h1
          rcases lt_trichotomy x z with hxz | hxz | hxz
          · simp [hxz]
          · subst hxz
            rw [if_neg (lt_irrefl x), if_pos rfl] at h2 ⊢
            exact ih h1 h2
          · rw [if_neg (asymm hxz), if_neg (ne_of_gt hxz)] at h2
            simp at h2
        · rw [if_neg (asymm hxy), if_neg (ne_of_gt hxy)] at h1
          simp at h1

theorem lexLe_antisymm {a b : Str} (h1 : lexLe a b = true) (h2 : lexLe b a = true) :
    a = b := by
  induction a generalizing b with
  | nil =>
    cases b with
    | nil => rfl
    | cons y ys => simp [lexLe] at h2
  | cons x xs ih =>
    cases b with
    | nil => simp [lexLe] at h1
    | cons y ys =>
      simp only [lexLe] at h1 h2
      rcases lt_trichotomy x y with hxy | hxy | hxy
      · rw [if_neg (asymm hxy), if_neg (ne_of_gt hxy)] at h2
        simp at h2
      · subst hxy
        rw [if_neg (lt_irrefl x), if_pos rfl] at h1 h2
        rw [ih h1 h2]
      · rw [if_neg (asymm hxy), if_neg (ne_of_gt hxy)] at h1
        simp at h1

instance : IsTotal Endpoint epLeP := ⟨by
  intro a b
  unfold epLeP
  by_cases hm : a.method = b.method
  · rw [if_pos hm, if_pos hm.symm]
    exact lexLe_total _ _
  · rw [if_neg hm, if_neg (fun h => hm h.symm)]
    exact lexLe_total _ _⟩

instance : IsTrans Endpoint epLeP := ⟨by
  intro a b c h1 h2
  unfold epLeP at h1 h2 ⊢
  by_cases hab : a.method = b.method <;> by_cases hbc : b.method = c.method
  · rw [if_pos hab] at h1
    rw [if_pos hbc] at h2
    rw [if_pos (hab.trans hbc)]
    exact lexLe_trans h1 h2
  · rw [if_pos hab] at h1
    rw [if_neg hbc] at h2
    rw [if_neg (fun h => hbc (hab.symm.trans h)), hab]
    exact h2
  · rw [if_neg hab] at h1
    rw [if_pos hbc] at h2
    rw [if_neg (fun h => hab (h.trans hbc.symm)), ← hbc]
    exact h1
  · rw [if_neg hab] at h1
    rw [if_neg hbc] at h2
    by_cases hac : a.method = c.method
    · rw [← hac] at h2
      exact absurd (lexLe_antisymm h1 h2) hab
    · rw [if_neg hac]
      exact lexLe_trans h1 h2⟩

/-- The contents of the lines appended (file mode `a`) during a trace; in
crawl.py only the index links are written by appending. -/
def appendContents : List Ev → List Str
  | [] => []
  | Ev.appendEv _ c :: tr => c :: appendContents tr
  | _ :: tr => appendContents tr

/-- The expected sequence of index link lines for a list of endpoints,
numbered from `i`. -/
def idxLines (i : Nat) : List Endpoint → List Str
  | [] => []
  | e :: rest => indexLine e i :: idxLines (i + 1) rest

theorem appendContents_renderLoop (out_dir : Str) (l : List Endpoint) : ∀ i,
    appendContents (renderLoop out_dir i l) = idxLines i l := by
  induction l with
  | nil => intro i; rfl
  | cons e rest ih =>
    intro i
    show indexLine e i :: appendContents (renderLoop out_dir (i + 1) rest)
      = indexLine e i :: idxLines (i + 1) rest
    rw [ih]

theorem renderLoop_no_print (out_dir : Str) (l : List Endpoint) :
    ∀ i, ∀ ev ∈ renderLoop out_dir i l, ∀ s, ev ≠ Ev.print s := by
  induction l with
  | nil =>
    intro i ev h
    simp [renderLoop] at h
  | cons e rest ih =>
    intro i ev h s
    simp only [renderLoop, List.cons_append, List.nil_append, List.mem_cons] at h
    rcases h with rfl | rfl | rfl | h
    · simp
    · simp
    · simp
    · exact ih (i + 1) ev h s

theorem write_md_ok {base : Str} {eps : List Endpoint} {out_dir0 : Str} {wr : List Ev}
    (h : write_md base eps out_dir0 = .ok wr) :
    ∃ od, wr = [Ev.mkdirEv od,
        Ev.writeEv (od ++ "/index.md".toList) ("## `".toList ++ base ++ "`\n\n".toList)]
      ++ renderLoop od 0 (sorted_endpoints eps) := by
  unfold write_md at h
  match hl : out_dir0.getLast? with
  | none =>
    rw [hl] at h
    simp at h
  | some c =>
    rw [hl] at h
    dsimp only at h
    cases h
    exact ⟨_, rfl⟩

def cexA : Entry :=
  { method := "GET".toList, url := "b/x?a&c".toList, reqHeaders := [],
    postDataText := none, resHeaders := [], contentText := none }

def cexB : Entry :=
  { method := "GET".toList, url := "b/x?c&a".toList, reqHeaders := [],
    postDataText := none, resHeaders := [], contentText := none }

/-- C1 counterexample: two filtered entries with the same method, the same
normalized path, the same *set* of parameter names (`a` and `c`, captured
in opposite orders) and the same (empty) set of body field names yield TWO
endpoints, because `Endpoint.__hash__` hashes the parameter names in
dictionary order, so the two hash tuples differ and CPython's set keeps
both. -/
theorem dedup_set_key_counterexample :
    Accepted "b".toList cexA ∧ Accepted "b".toList cexB ∧
    cexA.method = cexB.method ∧
    get_url cexA.url ("b".toList).length = get_url cexB.url ("b".toList).length ∧
    ((get_params cexA.url).map (fun p => p.1)).toFinset
      = ((get_params cexB.url).map (fun p => p.1)).toFinset ∧
    get_body cexA.postDataText = .ok (Json.obj []) ∧
    get_body cexB.postDataText = .ok (Json.obj []) ∧
    ∃ eps, get_endpoints [cexA, cexB] "b".toList = .ok eps ∧ eps.length = 2 := by
  refine ⟨by decide, by decide, rfl, rfl, by decide, rfl, rfl, _, rfl, rfl⟩

/-- C1 amended: the extraction result contains at most one endpoint per
distinct structural key, where the key is the value `__hash__` depends on:
`(method, normalized url, params.keys() ++ body.keys())` with the two name
sequences order-sensitive and concatenated; and for every filtered entry,
exactly one endpoint with that entry's key is in the result. -/
theorem dedup_exactly_one_per_flat_key (entries : List Entry) (base : Str)
    (eps : List Endpoint) (h : get_endpoints entries base = .ok eps) :
    eps.Pairwise (fun a b => keyOf a ≠ keyOf b) ∧
    ∀ en ∈ entries, Accepted base en → ∀ e, mkEndpoint base en = .ok e →
      (eps.filter (fun x => decide (keyOf x = keyOf e))).length = 1 := by
  constructor
  · exact extractGo_pairwise h List.Pairwise.nil
  · intro en hen hacc e hmk
    rcases extractGo_covers h hen hacc hmk with ⟨y, hy, hk⟩
    exact filter_key_length_one (extractGo_pairwise h List.Pairwise.nil) hy hk

def enW : Entry :=
  { method := "GET".toList, url := "b/x?a=1".toList, reqHeaders := [],
    postDataText := none, resHeaders := [], contentText := none }

def enW2 : Entry :=
  { method := "GET".toList, url := "b/x?a=2".toList,
    reqHeaders := [("h".toList, "v".toList)],
    postDataText := none, resHeaders := [], contentText := none }

def epW : Endpoint :=
  { method := "GET".toList, url := "/x/".toList,
    request := { headers := [], params := [("a".toList, "1".toList)], body := .obj [] },
    response := { headers := [], content := .obj [] } }

theorem dedup_exactly_one_per_flat_key_witness :
    ([epW] : List Endpoint).Pairwise (fun a b => keyOf a ≠ keyOf b) ∧
    ∀ en ∈ [enW, enW2], Accepted "b".toList en →
      ∀ e, mkEndpoint "b".toList en = .ok e →
        (([epW].filter (fun x => decide (keyOf x = keyOf e)))).length = 1 :=
  dedup_exactly_one_per_flat_key [enW, enW2] "b".toList [epW] rfl

/-- C2: every endpoint in the extraction result was built from the first
filtered entry whose structural key equals its own; no earlier filtered
entry produces that key, and later same-key entries did not replace the
stored example values (the set kept the first inserted instance). -/
theorem first_entry_with_key_wins (entries : List Entry) (base : Str)
    (eps : List Endpoint) (h : get_endpoints entries base = .ok eps)
    (x : Endpoint) (hx : x ∈ eps) :
    ∃ pre en post, entries = pre ++ en :: post ∧ Accepted base en ∧
      mkEndpoint base en = .ok x ∧
      ∀ en' ∈ pre, ¬ ProducesKey base en' (keyOf x) := by
  rcases extractGo_first h hx with hin | ⟨pre, en, post, heq, hA, hM, _, hP⟩
  · simp at hin
  · exact ⟨pre, en, post, heq, hA, hM, hP⟩

theorem first_entry_with_key_wins_witness :
    ∃ pre en post, ([enW, enW2] : List Entry) = pre ++ en :: post ∧
      Accepted "b".toList en ∧ mkEndpoint "b".toList en = .ok epW ∧
      ∀ en' ∈ pre, ¬ ProducesKey "b".toList en' (keyOf epW) :=
  first_entry_with_key_wins [enW, enW2] "b".toList [epW] rfl epW (by simp)

/-- C3: every entry that contributes an endpoint to the result passed both
filters (method is not `OPTIONS`, URL starts with the base), and entries
failing either filter contribute nothing: removing them leaves the result
unchanged. -/
theorem extraction_filters_sound (entries : List Entry) (base : Str) :
    (∀ eps, get_endpoints entries base = .ok eps →
      ∀ x ∈ eps, ∃ en ∈ entries, en.method ≠ "OPTIONS".toList ∧
        en.url.take base.length = base ∧ mkEndpoint base en = .ok x) ∧
    get_endpoints entries base
      = get_endpoints (entries.filter (fun en => decide (Accepted base en))) base := by
  constructor
  · intro eps h x hx
    rcases extractGo_first h hx with hin | ⟨pre, en, post, heq, hA, hM, _, _⟩
    · simp at hin
    · refine ⟨en, ?_, hA.1, hA.2, hM⟩
      rw [heq]
      exact List.mem_append.mpr (Or.inr (List.mem_cons_self _ _))
  · exact extractGo_filter base entries []

theorem extraction_filters_sound_witness :
    ∃ en ∈ [enW], en.method ≠ "OPTIONS".toList ∧
      en.url.take ("b".toList).length = "b".toList ∧
      mkEndpoint "b".toList en = .ok epW :=
  (extraction_filters_sound [enW] "b".toList).1 [epW] rfl epW (by simp)

/-- C4: URL normalization is idempotent.  An already-normalized URL (no
query string, trailing slash present) is a fixed point, and normalizing the
output of a successful normalization returns it unchanged. -/
theorem get_url_idempotent :
    (∀ u : Str, '?' ∉ u → u.getLast? = some '/' → get_url u 0 = .ok u) ∧
    ∀ u start v, get_url u start = .ok v → get_url v 0 = .ok v := by
  refine ⟨fun u hq hl => get_url_of_normalized hq hl, ?_⟩
  intro u start v h
  rcases get_url_ok_shape h with ⟨hq, hl⟩
  exact get_url_of_normalized hq hl

theorem get_url_idempotent_witness :
    get_url "/x/".toList 0 = .ok "/x/".toList ∧
    get_url "/x/".toList 0 = .ok "/x/".toList :=
  ⟨get_url_idempotent.1 "/x/".toList (by decide) rfl,
   get_url_idempotent.2 "b/x?q=1".toList 1 "/x/".toList rfl⟩

/-- C5: a structurally missing `postData.text` / `content.text` yields the
empty mapping, while a present but unparseable text raises a parse error
that the `except KeyError` clause does not catch, so extraction terminates
without a result. -/
theorem body_content_missing_vs_malformed :
    (get_body none = .ok (Json.obj []) ∧ get_content none = .ok (Json.obj [])) ∧
    (∀ t, parseJson t = none →
      get_body (some t) = .error .jsonDecode ∧
      get_content (some t) = .error .jsonDecode) ∧
    (∀ entries base en t, en ∈ entries → Accepted base en →
      en.postDataText = some t → parseJson t = none →
      ∀ eps, get_endpoints entries base ≠ .ok eps) ∧
    ∀ entries base en t, en ∈ entries → Accepted base en →
      en.contentText = some t → parseJson t = none →
      ∀ eps, get_endpoints entries base ≠ .ok eps := by
  refine ⟨⟨rfl, rfl⟩, ?_, ?_, ?_⟩
  · intro t hp
    constructor
    · simp only [get_body, hp]
    · simp only [get_content, hp]
  · intro entries base en t hen hacc ht hp eps hok
    rcases extractGo_error hacc (mkEndpoint_bad_body ht hp) entries hen [] with ⟨err, herr⟩
    unfold get_endpoints at hok
    rw [herr] at hok
    simp at hok
  · intro entries base en t hen hacc ht hp eps hok
    rcases mkEndpoint_bad_content ht hp with ⟨err0, hmk⟩
    rcases extractGo_error hacc hmk entries hen [] with ⟨err, herr⟩
    unfold get_endpoints at hok
    rw [herr] at hok
    simp at hok

def enBadBody : Entry :=
  { method := "GET".toList, url := "b/x".toList, reqHeaders := [],
    postDataText := some "\x7b".toList, resHeaders := [], contentText := none }

theorem body_content_missing_vs_malformed_witness :
    get_body (some "\x7b".toList) = .error .jsonDecode ∧
    ∀ eps, get_endpoints [enBadBody] "b".toList ≠ .ok eps :=
  ⟨(body_content_missing_vs_malformed.2.1 "\x7b".toList rfl).1,
   body_content_missing_vs_malformed.2.2.1 [enBadBody] "b".toList enBadBody "\x7b".toList
     (by simp) (by decide) rfl rfl⟩

/-- C6: the query string of the original URL is split on `&` then `=`; a
token without `=` maps the whole token to the empty string, and the value
recorded for a name is that of the last token with that name (later
duplicates overwrite earlier ones). -/
theorem params_split_and_overwrite :
    (∀ pv : Str, '=' ∉ pv → parseToken pv = (pv, [])) ∧
    ∀ url p, splitFirst '?' url = some p → ∀ k,
      pyLookup (get_params url) k
        = (((pySplit '&' p.2).map parseToken).reverse.find?
            (fun q => decide (q.1 = k))).map (fun q => q.2) := by
  constructor
  · intro pv h
    unfold parseToken
    rw [pySplit_of_not_mem h]
    rfl
  · intro url p hsp k
    unfold get_params
    rw [hsp]
    dsimp only
    have hmap : ((pySplit '&' p.2).map parseToken).foldl
          (fun d q => dictInsert d q.1 q.2) ([] : List (Str × Str))
        = (pySplit '&' p.2).foldl
            (fun d pv => dictInsert d (parseToken pv).1 (parseToken pv).2) [] := by
      rw [List.foldl_map]
    rw [← hmap, pyLookup_foldl]
    cases hfind : ((pySplit '&' p.2).map parseToken).reverse.find?
        (fun q => decide (q.1 = k)) with
    | none => simp [pyLookup_nil]
    | some q => simp

theorem params_split_and_overwrite_witness :
    parseToken "flag".toList = ("flag".toList, "".toList) ∧
    pyLookup (get_params "b/x?a&a=5".toList) "a".toList
      = (((pySplit '&' "a&a=5".toList).map parseToken).reverse.find?
          (fun q => decide (q.1 = "a".toList))).map (fun q => q.2) :=
  ⟨params_split_and_overwrite.1 "flag".toList (by decide),
   params_split_and_overwrite.2 "b/x?a&a=5".toList ("b/x".toList, "a&a=5".toList)
     rfl "a".toList⟩

/-- C8: with other than exactly three positional arguments (four `argv`
entries including the program name), the program prints the usage line to
standard output and exits with status 1, performing no read, extraction or
write. -/
theorem usage_on_wrong_arg_count (argv : List Str) (har : List Entry)
    (h : argv.length ≠ 4) :
    pyMain argv har = .ok ([Ev.print usageMsg], 1) ∧
    ∀ tr code, pyMain argv har = .ok (tr, code) → code ≠ 0 ∧
      ∀ ev ∈ tr, ev = Ev.print usageMsg := by
  have hm : pyMain argv har = .ok ([Ev.print usageMsg], 1) := by
    rcases argv with _ | ⟨a, _ | ⟨b, _ | ⟨c, _ | ⟨d, _ | ⟨e, rest⟩⟩⟩⟩⟩
    · rfl
    · rfl
    · rfl
    · rfl
    · exact absurd rfl h
    · rfl
  refine ⟨hm, ?_⟩
  intro tr code hok
  rw [hm] at hok
  cases hok
  exact ⟨by decide, by simp⟩

theorem usage_on_wrong_arg_count_witness :
    pyMain [] [] = .ok ([Ev.print usageMsg], 1) ∧
    ∀ tr code, pyMain [] [] = .ok (tr, code) → code ≠ 0 ∧
      ∀ ev ∈ tr, ev = Ev.print usageMsg :=
  usage_on_wrong_arg_count [] [] (by decide)

/-- C9: when the URL left after stripping the base prefix and removing the
query string is empty (the request URL is the base URL, possibly followed
only by a query string), `get_url` raises `IndexError` at `url[-1]` instead
of producing `/`, and extraction on a log containing such a filtered entry
returns no result. -/
theorem empty_normalized_path_errors :
    (∀ u start, cutAtQ (u.drop start) = [] → get_url u start = .error .indexError) ∧
    ∀ entries base en, en ∈ entries → Accepted base en →
      cutAtQ (en.url.drop base.length) = [] →
      ∀ eps, get_endpoints entries base ≠ .ok eps := by
  constructor
  · intro u start hu
    unfold get_url
    rw [hu]
    rfl
  · intro entries base en hen hacc hu eps hok
    rcases mkEndpoint_empty_url hu with ⟨err0, hmk⟩
    rcases extractGo_error hacc hmk entries hen [] with ⟨err, herr⟩
    unfold get_endpoints at hok
    rw [herr] at hok
    simp at hok

def enEmpty : Entry :=
  { method := "GET".toList, url := "b?x=1".toList, reqHeaders := [],
    postDataText := none, resHeaders := [], contentText := none }

theorem empty_normalized_path_errors_witness :
    get_url "b?x=1".toList 1 = .error .indexError ∧
    ∀ eps, get_endpoints [enEmpty] "b".toList ≠ .ok eps :=
  ⟨empty_normalized_path_errors.1 "b?x=1".toList 1 rfl,
   empty_normalized_path_errors.2 [enEmpty] "b".toList enEmpty (by simp) (by decide) rfl⟩

/-- C10: a query token with two or more `=` characters makes the tuple
unpacking raise `ValueError` (too many values), which the fallback handles
by keeping only the part before the first `=` with an empty value. -/
theorem token_with_multiple_eq (pv : Str) (h : 2 ≤ pv.count '=') :
    parseToken pv = (pv.takeWhile (fun c => decide (c ≠ '=')), []) := by
  unfold parseToken
  match hs : pySplit '=' pv with
  | [] => exact absurd hs (pySplit_ne_nil '=' pv)
  | [p] =>
    have hlen := pySplit_length '=' pv
    rw [hs] at hlen
    simp at hlen
    omega
  | [p, v] =>
    have hlen := pySplit_length '=' pv
    rw [hs] at hlen
    simp at hlen
    omega
  | p :: v :: w :: rest =>
    have hh := pySplit_headD '=' pv
    rw [hs] at hh
    simp only [List.headD_cons] at hh
    dsimp only
    rw [← hh]
    rfl

theorem token_with_multiple_eq_witness :
    parseToken "k=v1=v2".toList
      = ("k=v1=v2".toList.takeWhile (fun c => decide (c ≠ '=')), []) :=
  token_with_multiple_eq "k=v1=v2".toList (by decide)

theorem except_bind_ok {α β : Type} {x : Except Err α} {f : α → Except Err β} {b : β}
    (h : x >>= f = .ok b) : ∃ a, x = .ok a ∧ f a = .ok b := by
  cases x with
  | error e => exact Except.noConfusion h
  | ok a => exact ⟨a, rfl, h⟩

/-- C7: on a successful run, the trace is the HAR read, then the stdout
listing (one `print` per endpoint, mapped over the sorted endpoint
sequence), then the rendering events, which contain no prints; the lines
appended to the index are exactly the link lines of the same sorted
sequence, and that sequence is non-decreasing under the lexicographic
`(method, url)` ordering — so both listings use the same ordering and the
stdout listing is produced before any file is written. -/
theorem output_listing_and_index_sorted (prog harPath base out_dir : Str)
    (har : List Entry) (tr : List Ev) (code : Nat)
    (h : pyMain [prog, harPath, base, out_dir] har = .ok (tr, code)) :
    ∃ eps od,
      get_endpoints har base = .ok eps ∧
      List.Sorted epLeP (sorted_endpoints eps) ∧
      tr = Ev.readHar ::
        ((sorted_endpoints eps).map (fun e => Ev.print (stdoutLine e))
          ++ ([Ev.mkdirEv od,
               Ev.writeEv (od ++ "/index.md".toList)
                 ("## `".toList ++ base ++ "`\n\n".toList)]
              ++ renderLoop od 0 (sorted_endpoints eps))) ∧
      appendContents (renderLoop od 0 (sorted_endpoints eps))
        = idxLines 0 (sorted_endpoints eps) ∧
      ∀ ev ∈ renderLoop od 0 (sorted_endpoints eps), ∀ s, ev ≠ Ev.print s := by
  unfold pyMain at h
  dsimp only at h
  rcases except_bind_ok h with ⟨eps, hget, h2⟩
  rcases except_bind_ok h2 with ⟨wr, hwr, h3⟩
  cases h3
  rcases write_md_ok hwr with ⟨od, rfl⟩
  exact ⟨eps, od, hget, List.sorted_insertionSort epLeP eps, rfl,
    appendContents_renderLoop od _ 0, renderLoop_no_print od _ 0⟩

def argvW : List Str := ["prog".toList, "har".toList, "b".toList, "out".toList]

def trW : List Ev :=
  match pyMain argvW [enW] with
  | .ok p => p.1
  | .error _ => []

theorem output_listing_and_index_sorted_witness :
    ∃ eps od,
      get_endpoints [enW] "b".toList = .ok eps ∧
      List.Sorted epLeP (sorted_endpoints eps) ∧
      trW = Ev.readHar ::
        ((sorted_endpoints eps).map (fun e => Ev.print (stdoutLine e))
          ++ ([Ev.mkdirEv od,
               Ev.writeEv (od ++ "/index.md".toList)
                 ("## `".toList ++ "b".toList ++ "`\n\n".toList)]
              ++ renderLoop od 0 (sorted_endpoints eps))) ∧
      appendContents (renderLoop od 0 (sorted_endpoints eps))
        = idxLines 0 (sorted_endpoints eps) ∧
      ∀ ev ∈ renderLoop od 0 (sorted_endpoints eps), ∀ s, ev ≠ Ev.print s :=
  output_listing_and_index_sorted "prog".toList "har".toList "b".toList "out".toList
    [enW] trW 0 rfl
